import Mathlib

/-!
A shallow embedding of the tokenization core of the `eyecite` repository
(files `src/lib.rs`, `src/regexes.rs`, `src/tokenizers.rs`,
`src/tokenizers/models.rs`, `src/tokenizers/extractors.rs`), together with
theorems settling the specification claims about it.

Rust strings are modelled as `List Char`; byte offsets become character
offsets (the claims never depend on multi-byte encodings).  A Rust slice
`&text[a..b]` is `(text.take b).drop a`.  Fallible or panicking accessors
return `Option`.
-/

set_option maxRecDepth 10000

namespace Eyecite

/-- The two build-time error variants of `EyeciteError` in `src/lib.rs`.
There is no short-form-derivation variant. -/
inductive EyeciteError
  | ahocorasickError (source : String)
  | regexError (source : String)
deriving DecidableEq

/-- `reporters_db::reporters::Edition`: a validity window.  Treated as opaque
external data; only its presence in extractor metadata matters here. -/
structure Edition where
  startDate : Option Int
  endDate : Option Int
deriving DecidableEq

/-- `TokenExtractorExtra` from `src/tokenizers/extractors.rs`. -/
structure TokenExtractorExtra where
  exact_editions : List Edition
  variation_editions : List Edition
  short : Bool
deriving DecidableEq

instance : Inhabited TokenExtractorExtra := ⟨⟨[], [], false⟩⟩

/-- `TokenData` from `src/tokenizers/models.rs`: the matched substring, its
half-open span, the owning extractor's metadata and the named capture
groups. -/
structure TokenData where
  data : List Char
  start : Nat
  «end» : Nat
  extra : TokenExtractorExtra
  groups : List (String × List Char)
deriving DecidableEq

/-- `Token` from `src/tokenizers/models.rs`. -/
inductive Token
  | Word (s : List Char)
  | Space
  | Citation (d : TokenData)
  | Section (d : TokenData)
  | Supra (d : TokenData)
  | Id (d : TokenData)
  | Paragraph (d : TokenData)
  | StopWord (d : TokenData)
deriving DecidableEq

namespace Token

/-- `Token::data` from `src/tokenizers/models.rs`.  The source hits `todo!`
(a panic) on the `Word` and `Space` variants; the panic is modelled as
`none`. -/
def dataOpt : Token → Option TokenData
  | Citation d | StopWord d | Supra d | Id d | Paragraph d | Section d => some d
  | Word _ | Space => none

/-- `Token::start`, with the panic on `Word`/`Space` modelled as `none`. -/
def startOpt (t : Token) : Option Nat := t.dataOpt.map TokenData.start

/-- `Token::end`, with the panic on `Word`/`Space` modelled as `none`. -/
def endOpt (t : Token) : Option Nat := t.dataOpt.map TokenData.end

/-- Total reading of `Token::start` used inside `tokenize`.  The tokenizer
only ever receives extractor-produced tokens, which always carry data;
theorems about `tokenize` carry that hypothesis, so the default is never
reached there. -/
def start! (t : Token) : Nat := (t.dataOpt.map TokenData.start).getD 0

/-- Total reading of `Token::end` used inside `tokenize`. -/
def end! (t : Token) : Nat := (t.dataOpt.map TokenData.end).getD 0

/-- `Token::merge` from `src/tokenizers/models.rs`: it is a no-op that
always returns `None`. -/
def merge (_t _other : Token) : Option Token := none

end Token

/-- `TokenFactories` from `src/tokenizers/models.rs`. -/
inductive TokenFactories
  | Paragraph
  | Id
  | Supra
  | Citation
  | StopWord
  | Section
deriving DecidableEq

/-- `TokenFactory::create` for `TokenFactories`. -/
def TokenFactories.create : TokenFactories → TokenData → Token
  | .Paragraph, d => .Paragraph d
  | .Id, d => .Id d
  | .Supra, d => .Supra d
  | .Citation, d => .Citation d
  | .Section, d => .Section d
  | .StopWord, d => .StopWord d

/-- A capture produced by running an extractor's compiled regex: the span
and text of capture group 1 (the span the token is built from) and the
named capture groups.  This is the data `TokenExtractor::get_token` reads
off a `regex::Captures`. -/
structure TokenMatch where
  start : Nat
  «end» : Nat
  data : List Char
  groups : List (String × List Char)
deriving DecidableEq

/-- The contract the `regex` crate documents for every match it reports on
`text`: the span lies inside `text` and `as_str` is exactly the matched
slice `text[start..end]`. -/
def CaptureWF (text : List Char) (m : TokenMatch) : Prop :=
  m.start ≤ m.end ∧ m.end ≤ text.length ∧ m.data = (text.take m.end).drop m.start

instance (text : List Char) (m : TokenMatch) : Decidable (CaptureWF text m) := by
  unfold CaptureWF; infer_instance

/-- `TokenExtractor` from `src/tokenizers/extractors.rs`.  The compiled
regex and its matcher (`built_regex.captures_iter`) are modelled by the
`matcher` field: the list of captures the regex engine reports on a text,
in order of appearance. -/
structure TokenExtractor where
  token_factory : TokenFactories
  extra : TokenExtractorExtra
  strings : List (List Char)
  ignore_case : Bool
  matcher : List Char → List TokenMatch

/-- `TokenExtractor::get_matches`: run the compiled regex over the whole
text. -/
def TokenExtractor.get_matches (e : TokenExtractor) (text : List Char) : List TokenMatch :=
  e.matcher text

/-- `TokenExtractor::get_token`: build a token of the extractor's kind from
a match's group-1 span and named groups. -/
def TokenExtractor.get_token (e : TokenExtractor) (m : TokenMatch) : Token :=
  e.token_factory.create
    { data := m.data
      start := m.start
      «end» := m.end
      extra := e.extra
      groups := m.groups }

/-- `Tokenizer::extract_tokens` from `src/tokenizers.rs`: flat-map the
candidate extractors over their matches, in the order the candidate
iterator produces them.  No sorting happens. -/
def extractTokens (getExtractors : List Char → List TokenExtractor) (text : List Char) :
    List Token :=
  ((getExtractors text).map fun e => (e.get_matches text).map e.get_token).flatten

/-- The ASCII space character `append_text` splits on. -/
def spaceChar : Char := Char.ofNat 32

/-- One part's contribution inside `append_text`'s loop body: a nonempty
part pushes a `Word` and a `Space`, an empty part pushes a `Space`. -/
def partTokens (p : List Char) : List Token :=
  if p.isEmpty then [Token.Space] else [Token.Word p, Token.Space]

/-- `append_text` from `src/tokenizers.rs`, as the list of tokens the call
pushes.  The source pushes into the shared `all_tokens` vector and then
pops once; since `split(' ')` always yields at least one part and every
part pushes at least one token, the pop always removes the final `Space`
pushed by this very call, so the call appends exactly this list. -/
def appendText (s : List Char) : List Token :=
  (((s.splitOn spaceChar).map partTokens).flatten).dropLast

/-- The loop state of `Tokenizer::tokenize` from `src/tokenizers.rs`. -/
structure TokState where
  citation_tokens : List (Nat × Token)
  all_tokens : List Token
  last_token : Option Token
  offset : Nat
deriving DecidableEq

/-- One iteration of the `for token in tokens` loop of
`Tokenizer::tokenize` (`src/tokenizers.rs` lines 45-76). -/
def tokenizeStep (text : List Char) (st : TokState) (token : Token) : TokState :=
  let merged := match st.last_token with
    | some last => last.merge token
    | none => none
  match merged with
  | some m =>
    { st with
      citation_tokens :=
        st.citation_tokens.dropLast ++ [(st.all_tokens.dropLast.length, m)]
      all_tokens := st.all_tokens.dropLast ++ [m] }
  | none =>
    if st.offset > token.start! then st
    else
      let alls :=
        if st.offset < token.start! then
          st.all_tokens ++ appendText ((text.take token.start!).drop st.offset)
        else st.all_tokens
      { citation_tokens := st.citation_tokens ++ [(alls.length, token)]
        all_tokens := alls ++ [token]
        last_token := some token
        offset := token.end! }

/-- The tail of `Tokenizer::tokenize`: fold the loop over the extracted
tokens and append the trailing plain text. -/
def tokenizeAssemble (text : List Char) (tokens : List Token) :
    List Token × List (Nat × Token) :=
  let st := tokens.foldl (tokenizeStep text) ⟨[], [], none, 0⟩
  let alls :=
    if st.offset < text.length then st.all_tokens ++ appendText (text.drop st.offset)
    else st.all_tokens
  (alls, st.citation_tokens)

/-- `Tokenizer::tokenize` from `src/tokenizers.rs`: extract all candidate
matches, then assemble the full stream and the indexed citation-token
list. -/
def tokenize (getExtractors : List Char → List TokenExtractor) (text : List Char) :
    List Token × List (Nat × Token) :=
  tokenizeAssemble text (extractTokens getExtractors text)

/-- Whether pattern `p` occurs in `text` at position `i`. -/
def occursAt (p text : List Char) (i : Nat) : Bool :=
  p.isPrefixOf (text.drop i)

/-- The earliest-ending occurrence of any pattern starting at or after
position `i`: the match the Aho-Corasick automaton (`daachorse`'s
`find_iter`, standard non-overlapping matching) reports next.  Ends are
scanned in increasing order; among patterns ending together the first in
`pats` wins (our concrete pattern sets never tie). -/
def acFirstFrom (pats : List (List Char)) (text : List Char) (i : Nat) :
    Option (Nat × List Char) :=
  ((List.range (text.length + 1)).flatMap fun e =>
    pats.filterMap fun p =>
      if p.length ≤ e ∧ i ≤ e - p.length ∧ occursAt p text (e - p.length)
      then some (e - p.length, p) else none).head?

/-- The fuelled scan loop behind `acMatches`; each reported match advances
past its end, so `text.length + 1` fuel always suffices. -/
def acMatchesGo (pats : List (List Char)) (text : List Char) : Nat → Nat →
    List (Nat × List Char)
  | 0, _ => []
  | fuel + 1, i =>
    match acFirstFrom pats text i with
    | none => []
    | some (s, p) => (s, p) :: acMatchesGo pats text fuel (s + p.length)

/-- All matches `daachorse::DoubleArrayAhoCorasick::find_iter` reports on
`text`: non-overlapping occurrences of the patterns, earliest end first,
each search resuming at the previous match's end. -/
def acMatches (pats : List (List Char)) (text : List Char) : List (Nat × List Char) :=
  acMatchesGo pats text (text.length + 1) 0

/-- The `Ahocorasick` tokenizer from `src/tokenizers.rs`: the map from
trigger string to the extractors that registered it, and the pattern list
the automaton is built over. -/
structure Ahocorasick where
  extractors : List (List Char × List TokenExtractor)
  strings : List (List Char)

/-- One `extractors.entry(s).or_default().push(e)` step of
`Ahocorasick::new`. -/
def addToMap (m : List (List Char × List TokenExtractor)) (s : List Char)
    (e : TokenExtractor) : List (List Char × List TokenExtractor) :=
  if m.any fun kv => kv.1 = s then
    m.map fun kv => if kv.1 = s then (kv.1, kv.2 ++ [e]) else kv
  else m ++ [(s, [e])]

/-- `Ahocorasick::new` from `src/tokenizers.rs`: register every extractor
under each of its trigger strings, and build the automaton over the keys.
(The source draws the key list from a `HashMap`, whose order is
unspecified; insertion order is used here.  `acMatches` reports matches by
text position, so the claims do not depend on that order.) -/
def Ahocorasick.new (items : List TokenExtractor) : Ahocorasick :=
  let m := items.foldl (fun m e => e.strings.foldl (fun m s => addToMap m s e) m) []
  ⟨m, m.map fun kv => kv.1⟩

/-- `Ahocorasick::get_extractors` from `src/tokenizers.rs`: every automaton
hit surfaces all extractors registered under the matched trigger string,
with no de-duplication. -/
def Ahocorasick.get_extractors (a : Ahocorasick) (text : List Char) :
    List TokenExtractor :=
  (acMatches a.strings text).flatMap fun m =>
    ((a.extractors.find? fun kv => kv.1 = m.2).map fun kv => kv.2).getD []

/-- The matcher of a compiled regex `(lit)` for a literal `lit`:
`captures_iter` reports the leftmost non-overlapping occurrences, each
search resuming at the previous match's end.  Group 1 is the whole
literal; there are no named groups. -/
def literalMatchesGo (lit text : List Char) : Nat → Nat → List TokenMatch
  | 0, _ => []
  | fuel + 1, i =>
    if i + lit.length > text.length then []
    else if occursAt lit text i then
      ⟨i, i + lit.length, lit, []⟩ :: literalMatchesGo lit text fuel (i + lit.length)
    else literalMatchesGo lit text fuel (i + 1)

/-- All captures of the literal regex `(lit)` on `text`. -/
def literalMatches (lit text : List Char) : List TokenMatch :=
  literalMatchesGo lit text (text.length + 1) 0

/-- The newline character matched by `PARAGRAPH_REGEX`. -/
def newlineChar : Char := Char.ofNat 10

/-- The matcher of `PARAGRAPH_REGEX` (`src/regexes.rs`): the regex `(\n)`
captures each newline character, group 1 being the newline itself, with no
named groups. -/
def paragraphMatches (text : List Char) : List TokenMatch :=
  literalMatches [newlineChar] text

/-- The Paragraph extractor registered by `_populate_reporter_extractors`
(`src/tokenizers/extractors.rs` lines 281-287): `PARAGRAPH_REGEX`, the
Paragraph token factory, case-sensitive, and - via `Default::default()` -
an **empty** trigger-string set and empty metadata. -/
def paragraphExtractor : TokenExtractor where
  token_factory := .Paragraph
  extra := default
  strings := []
  ignore_case := false
  matcher := paragraphMatches

/-- The prefilter-soundness property of the spec for one extractor: every
span its regex matches contains an occurrence of one of its trigger
strings. -/
def PrefilterSound (e : TokenExtractor) : Prop :=
  ∀ text : List Char, ∀ m ∈ e.matcher text,
    ∃ s ∈ e.strings, ∃ i, m.start ≤ i ∧ i + s.length ≤ m.end ∧ occursAt s text i

/-- The text a token contributes to the document: a `Word`'s substring, one
space character for a `Space`, and the `data` span of every other kind. -/
def payload : Token → List Char
  | .Word s => s
  | .Space => [spaceChar]
  | .Citation d | .StopWord d | .Supra d | .Id d | .Paragraph d | .Section d => d.data

/-- Concatenation of the payloads of a token stream. -/
def payloadConcat (l : List Token) : List Char := (l.map payload).flatten

/-- The spans of the span-carrying (citation-relevant) tokens of a stream,
in order. -/
def dataSpans (l : List Token) : List (Nat × Nat) :=
  l.filterMap fun t => t.dataOpt.map fun d => (d.start, d.end)

/-- A token's span data is valid for `text`: `start <= end <= text.length`
and `data` is exactly `text[start..end]`. -/
def DataValid (text : List Char) (d : TokenData) : Prop :=
  d.start ≤ d.end ∧ d.end ≤ text.length ∧ d.data = (text.take d.end).drop d.start

instance (text : List Char) (d : TokenData) : Decidable (DataValid text d) := by
  unfold DataValid; infer_instance

/-- A token carries data and that data is valid for `text`. -/
def SpanValid (text : List Char) (t : Token) : Prop :=
  match t.dataOpt with
  | some d => DataValid text d
  | none => False

instance (text : List Char) (t : Token) : Decidable (SpanValid text t) :=
  match t with
  | .Word _ => isFalse fun h => h
  | .Space => isFalse fun h => h
  | .Citation d | .StopWord d | .Supra d | .Id d | .Paragraph d | .Section d =>
    inferInstanceAs (Decidable (DataValid text d))

/-- Relation between adjacent spans of the stream: the earlier one ends no
later than the later one starts. -/
def spanOrdered (a b : Nat × Nat) : Prop := a.2 ≤ b.1

instance (a b : Nat × Nat) : Decidable (spanOrdered a b) := by
  unfold spanOrdered; infer_instance

/-- Whether a token is a `Word` filler token. -/
def Token.isWord : Token → Bool
  | .Word _ => true
  | _ => false

/-- No two `Word` tokens are adjacent. -/
def noAdjacentWords (a b : Token) : Prop := ¬(a.isWord = true ∧ b.isWord = true)

/-- `ResolvedRegex` of `reporters_db`: a resolved literal pattern string. -/
structure ResolvedRegex where
  value : List Char
deriving DecidableEq

/-- Drop a literal prefix from a string, if present. -/
def dropLit : List Char → List Char → Option (List Char)
  | [], rest => some rest
  | _ :: _, [] => none
  | c :: p, a :: rest => if a = c then dropLit p rest else none

/-- The text of the `reporter` named-group opener. -/
def reporterOpen : List Char := "(?P<reporter>".toList

/-- The text of the `page` named-group opener`. -/
def pageOpen : List Char := "(?P<page>".toList

/-- The closing parenthesis character. -/
def closeParen : Char := Char.ofNat 41

/-- The comma character. -/
def commaChar : Char := Char.ofNat 44

/-- The question-mark character. -/
def questionChar : Char := Char.ofNat 63

/-- One attempted match at the head of `s` of the meta-regex in
`short_cite_re` (`src/regexes.rs` lines 138-156):
`(\(\?P<reporter>[^)]+\))(?:,\?)?\ (\(\?P<page>)` - the reporter group
(literal opener, a nonempty run of non-`)` characters, a `)`), optionally
a literal `,?`, a space, and the page-group opener.  On success, returns
the replacement `$1,? at $2` together with the rest of the input after the
match. -/
def scMatch (s : List Char) : Option (List Char × List Char) :=
  match dropLit reporterOpen s with
  | none => none
  | some s1 =>
    let body := s1.takeWhile fun c => c ≠ closeParen
    let s2 := s1.dropWhile fun c => c ≠ closeParen
    if body.isEmpty then none
    else
      match s2 with
      | [] => none
      | _ :: s3 =>
        let conn :=
          match dropLit [commaChar, questionChar, spaceChar] s3 with
          | some s4 => some s4
          | none => dropLit [spaceChar] s3
        match conn with
        | none => none
        | some s4 =>
          match dropLit pageOpen s4 with
          | none => none
          | some s5 =>
            some (reporterOpen ++ body ++ [closeParen] ++
              [commaChar, questionChar, spaceChar] ++ "at ".toList ++ pageOpen, s5)

/-- The scan loop of `replace_all` in `short_cite_re`: at each position try
the meta-regex; on a match emit the replacement and resume after the
match, else copy one character.  Fuelled by the input length, which
suffices since every step consumes at least one character. -/
def scReplaceGo : Nat → List Char → List Char
  | 0, s => s
  | fuel + 1, s =>
    match scMatch s with
    | some (rep, rest) => rep ++ scReplaceGo fuel rest
    | none =>
      match s with
      | [] => []
      | c :: t => c :: scReplaceGo fuel t

/-- `replace_all` of the `short_cite_re` meta-regex over a pattern
string. -/
def scReplace (s : List Char) : List Char := scReplaceGo s.length s

/-- `short_cite_re` from `src/regexes.rs`: convert a full citation regex
into a short citation regex by rewriting the
`(?P<reporter>...),? (?P<page>` connective into `(?P<reporter>...),? at
(?P<page>`.  Where the meta-regex finds nothing, `replace_all` returns the
input unchanged; the function is total and reports no error. -/
def short_cite_re (regex : List Char) : ResolvedRegex :=
  ⟨scReplace regex⟩

/-- A concrete `TokenExtractor` whose compiled regex is the literal
`(qp r)`, registered under the trigger string `p` (which occurs inside
every match).  `Ahocorasick::new` accepts any extractor slice; this is one
of the two extractors used to exercise the tokenizer's ordering rules. -/
def extractorQPR : TokenExtractor where
  token_factory := .Citation
  extra := default
  strings := [['p']]
  ignore_case := false
  matcher := literalMatches "qp r".toList

/-- A concrete `TokenExtractor` whose compiled regex is the literal
`(p q)`, registered under the trigger string `q` (which occurs inside
every match). -/
def extractorPQ : TokenExtractor where
  token_factory := .Citation
  extra := default
  strings := [['q']]
  ignore_case := false
  matcher := literalMatches "p q".toList

/-- The automaton built over the two literal extractors. -/
def ahoQP : Ahocorasick := Ahocorasick.new [extractorQPR, extractorPQ]

/-- The sample text `p qp r` on which `extractorPQ`'s match starts first
but `extractorQPR` is surfaced first by the prefilter. -/
def textPQPR : List Char := "p qp r".toList

/-- A concrete `TokenExtractor` whose compiled regex is the literal `(p)`,
registered under the trigger string `p`. -/
def extractorP : TokenExtractor where
  token_factory := .StopWord
  extra := default
  strings := [['p']]
  ignore_case := false
  matcher := literalMatches ['p']

/-- The automaton built over the single extractor `extractorP`. -/
def ahoP : Ahocorasick := Ahocorasick.new [extractorP]

/-- The automaton built over the Paragraph extractor alone. -/
def ahoParagraph : Ahocorasick := Ahocorasick.new [paragraphExtractor]

/-- The token `extractorQPR` produces on `textPQPR`: span `[2, 6)`. -/
def tokenQPR : Token := .Citation ⟨"qp r".toList, 2, 6, default, []⟩

/-- The token `extractorPQ` produces on `textPQPR`: span `[0, 3)`. -/
def tokenPQ : Token := .Citation ⟨"p q".toList, 0, 3, default, []⟩

/-- The sample text `p p` for the duplicate-surfacing scenario. -/
def textPP : List Char := "p p".toList

/-- The first token `extractorP` produces on `textPP`. -/
def tokenP1 : Token := .StopWord ⟨['p'], 0, 1, default, []⟩

/-- The second token `extractorP` produces on `textPP`. -/
def tokenP2 : Token := .StopWord ⟨['p'], 2, 3, default, []⟩

/-- A citation token over span `[0, 2)` of the text `ab`, as a first
extractor would produce it (its own capture group `x`). -/
def tokenDupA : Token :=
  .Citation ⟨"ab".toList, 0, 2, ⟨[], [], false⟩, [("x", "ab".toList)]⟩

/-- The same logical citation over the same span `[0, 2)`, as a second,
different extractor would produce it (different metadata and capture
group `y`). -/
def tokenDupB : Token :=
  .Citation ⟨"ab".toList, 0, 2, ⟨[], [⟨none, none⟩], true⟩, [("y", "ab".toList)]⟩

/-- Sample text containing a newline surrounded by letters. -/
def textANB : List Char := ['a', newlineChar, 'b']

theorem spanValid_dataOpt {text : List Char} {t : Token} (h : SpanValid text t) :
    ∃ d, t.dataOpt = some d ∧ DataValid text d := by
  cases t <;> simp only [SpanValid, Token.dataOpt] at h ⊢ <;> first
    | exact h.elim
    | exact ⟨_, rfl, h⟩

theorem start!_of_dataOpt {t : Token} {d : TokenData} (h : t.dataOpt = some d) :
    t.start! = d.start := by
  simp [Token.start!, h]

theorem end!_of_dataOpt {t : Token} {d : TokenData} (h : t.dataOpt = some d) :
    t.end! = d.end := by
  simp [Token.end!, h]

theorem payload_of_dataOpt {t : Token} {d : TokenData} (h : t.dataOpt = some d) :
    payload t = d.data := by
  cases t <;> simp_all [Token.dataOpt, payload]

theorem payloadConcat_append (a b : List Token) :
    payloadConcat (a ++ b) = payloadConcat a ++ payloadConcat b := by
  simp [payloadConcat]

theorem payloadConcat_single (t : Token) : payloadConcat [t] = payload t := by
  simp [payloadConcat]

theorem payloadConcat_partTokens (p : List Char) :
    payloadConcat (partTokens p) = p ++ [spaceChar] := by
  by_cases hp : p.isEmpty <;> simp_all [partTokens, payloadConcat, payload, List.isEmpty_iff]

theorem partTokens_ne_nil (p : List Char) : partTokens p ≠ [] := by
  by_cases hp : p.isEmpty <;> simp [partTokens, hp]

theorem flatten_partTokens_ne_nil {ps : List (List Char)} (h : ps ≠ []) :
    ((ps.map partTokens).flatten) ≠ [] := by
  cases ps with
  | nil => exact absurd rfl h
  | cons p qs =>
    simp only [List.map_cons, List.flatten_cons, ne_eq, List.append_eq_nil]
    exact fun hc => partTokens_ne_nil p hc.1

theorem joined_payload :
    ∀ ps : List (List Char), ps ≠ [] →
      payloadConcat (((ps.map partTokens).flatten).dropLast) = [spaceChar].intercalate ps
  | [], h => absurd rfl h
  | [p], _ => by
    by_cases hp : p.isEmpty <;>
      simp_all [partTokens, payloadConcat, payload, List.intercalate, List.isEmpty_iff]
  | p :: q :: ps, _ => by
    have hrest := @flatten_partTokens_ne_nil (q :: ps) (by simp)
    have ih := joined_payload (q :: ps) (by simp)
    simp only [List.map_cons, List.flatten_cons] at hrest ih ⊢
    rw [List.dropLast_append_of_ne_nil _ hrest, payloadConcat_append, ih,
      payloadConcat_partTokens]
    simp [List.intercalate, List.intersperse_cons_cons]

/-- Coverage of a gap: `append_text` emits tokens whose payloads
concatenate back to exactly the gap text. -/
theorem appendText_payload (s : List Char) : payloadConcat (appendText s) = s := by
  have h := joined_payload (s.splitOn spaceChar) (List.splitOnP_ne_nil _ s)
  rw [appendText, h, List.intercalate_splitOn s spaceChar]

/-- `append_text` only ever emits `Word` and `Space` filler tokens. -/
theorem appendText_filler {s : List Char} {t : Token} (h : t ∈ appendText s) :
    t.dataOpt = none := by
  have h1 : t ∈ ((s.splitOn spaceChar).map partTokens).flatten :=
    (List.dropLast_sublist _).subset h
  obtain ⟨l, hl, htl⟩ := List.mem_flatten.1 h1
  obtain ⟨p, _, hp⟩ := List.mem_map.1 hl
  subst hp
  by_cases hpe : p.isEmpty <;> simp only [partTokens, hpe] at htl <;>
    simp only [if_true, if_false, Bool.false_eq_true, List.mem_cons,
      List.mem_singleton, List.not_mem_nil, or_false] at htl <;>
    rcases htl with rfl | rfl <;> rfl

theorem dataSpans_append (a b : List Token) :
    dataSpans (a ++ b) = dataSpans a ++ dataSpans b := by
  simp [dataSpans]

theorem dataSpans_appendText (s : List Char) : dataSpans (appendText s) = [] := by
  rw [dataSpans, List.filterMap_eq_nil_iff]
  intro t ht
  simp [appendText_filler ht]

/-- `Token::merge` never fires, so the loop body reduces to the
discard-or-emit form. -/
theorem tokenizeStep_eq (text : List Char) (st : TokState) (token : Token) :
    tokenizeStep text st token =
      if st.offset > token.start! then st
      else
        let alls :=
          if st.offset < token.start! then
            st.all_tokens ++ appendText ((text.take token.start!).drop st.offset)
          else st.all_tokens
        { citation_tokens := st.citation_tokens ++ [(alls.length, token)]
          all_tokens := alls ++ [token]
          last_token := some token
          offset := token.end! } := by
  cases h : st.last_token <;> simp [tokenizeStep, h, Token.merge]

theorem take_append_slice {a b : Nat} (text : List Char) (h : a ≤ b) :
    text.take a ++ (text.take b).drop a = text.take b := by
  conv_rhs => rw [← List.take_append_drop a (text.take b)]
  rw [List.take_take, Nat.min_eq_left h]

theorem foldl_payload_inv (text : List Char) :
    ∀ (l : List Token) (st : TokState),
      (∀ t ∈ l, SpanValid text t) →
      payloadConcat st.all_tokens = text.take st.offset →
      st.offset ≤ text.length →
      payloadConcat (l.foldl (tokenizeStep text) st).all_tokens
          = text.take (l.foldl (tokenizeStep text) st).offset
        ∧ (l.foldl (tokenizeStep text) st).offset ≤ text.length := by
  intro l
  induction l with
  | nil => intro st _ h1 h2; exact ⟨h1, h2⟩
  | cons t l ih =>
    intro st hv h1 h2
    rw [List.foldl_cons, tokenizeStep_eq]
    obtain ⟨d, hd, hds, hde, hdata⟩ := spanValid_dataOpt (hv t (List.mem_cons_self t l))
    rw [start!_of_dataOpt hd, end!_of_dataOpt hd]
    by_cases hskip : st.offset > d.start
    · rw [if_pos hskip]
      exact ih st (fun u hu => hv u (List.mem_cons_of_mem t hu)) h1 h2
    · rw [if_neg hskip]
      push_neg at hskip
      apply ih _ (fun u hu => hv u (List.mem_cons_of_mem t hu))
      · by_cases hgap : st.offset < d.start
        · rw [if_pos hgap]
          rw [payloadConcat_append, payloadConcat_append, h1, appendText_payload,
            payloadConcat_single, payload_of_dataOpt hd, hdata,
            take_append_slice text hskip, take_append_slice text hds]
        · rw [if_neg hgap]
          have heq : st.offset = d.start := Nat.le_antisymm hskip (Nat.le_of_not_lt hgap)
          rw [payloadConcat_append, h1, heq, payloadConcat_single,
            payload_of_dataOpt hd, hdata, take_append_slice text hds]
      · exact hde

/-- Coverage: concatenating the payloads of the full token stream returns
the original text, provided every extracted token's span is valid for the
text (the regex engine's guarantee, see `CaptureWF`). -/
theorem assemble_payload (text : List Char) (tokens : List Token)
    (hv : ∀ t ∈ tokens, SpanValid text t) :
    payloadConcat (tokenizeAssemble text tokens).1 = text := by
  obtain ⟨h1, h2⟩ := foldl_payload_inv text tokens ⟨[], [], none, 0⟩ hv (by rfl) (Nat.zero_le _)
  rw [tokenizeAssemble]
  by_cases hl : (tokens.foldl (tokenizeStep text) ⟨[], [], none, 0⟩).offset < text.length
  · simp only [hl, if_true, payloadConcat_append, h1, appendText_payload]
    exact List.take_append_drop _ text
  · have heq : (tokens.foldl (tokenizeStep text) ⟨[], [], none, 0⟩).offset = text.length :=
      Nat.le_antisymm h2 (Nat.le_of_not_lt hl)
    rw [if_neg hl, h1, heq]
    exact List.take_length text

theorem dataSpans_single_of_dataOpt {t : Token} {d : TokenData} (h : t.dataOpt = some d) :
    dataSpans [t] = [(d.start, d.end)] := by
  simp [dataSpans, h]

theorem foldl_spans_inv (text : List Char) :
    ∀ (l : List Token) (st : TokState),
      (∀ t ∈ l, t.dataOpt.isSome) →
      List.Chain' spanOrdered (dataSpans st.all_tokens) →
      (∀ sp ∈ (dataSpans st.all_tokens).getLast?, sp.2 = st.offset) →
      List.Chain' spanOrdered (dataSpans (l.foldl (tokenizeStep text) st).all_tokens)
        ∧ ∀ sp ∈ (dataSpans (l.foldl (tokenizeStep text) st).all_tokens).getLast?,
            sp.2 = (l.foldl (tokenizeStep text) st).offset := by
  intro l
  induction l with
  | nil => intro st _ h1 h2; exact ⟨h1, h2⟩
  | cons t l ih =>
    intro st hv h1 h2
    rw [List.foldl_cons, tokenizeStep_eq]
    obtain ⟨d, hd⟩ := Option.isSome_iff_exists.1 (hv t (List.mem_cons_self t l))
    rw [start!_of_dataOpt hd, end!_of_dataOpt hd]
    by_cases hskip : st.offset > d.start
    · rw [if_pos hskip]
      exact ih st (fun u hu => hv u (List.mem_cons_of_mem t hu)) h1 h2
    · rw [if_neg hskip]
      push_neg at hskip
      apply ih _ (fun u hu => hv u (List.mem_cons_of_mem t hu))
      all_goals
        have halls :
            dataSpans ((if st.offset < d.start then
                st.all_tokens ++ appendText ((text.take d.start).drop st.offset)
              else st.all_tokens) ++ [t]) = dataSpans st.all_tokens ++ [(d.start, d.end)] := by
          by_cases hgap : st.offset < d.start <;>
            simp [hgap, dataSpans_append, dataSpans_appendText, dataSpans_single_of_dataOpt hd]
      · simp only [halls]
        refine List.chain'_append.2 ⟨h1, List.chain'_singleton _, ?_⟩
        intro x hx y hy
        simp only [List.head?_cons, Option.mem_def, Option.some_inj] at hy
        subst hy
        exact (h2 x hx).le.trans hskip
      · simp only [halls]
        intro sp hsp
        rw [List.getLast?_concat] at hsp
        simp only [Option.mem_def, Option.some_inj] at hsp
        subst hsp
        rfl

/-- Non-overlap: the spans of the span-carrying tokens of the assembled
stream are pairwise ordered, each ending no later than the next starts. -/
theorem assemble_spans (text : List Char) (tokens : List Token)
    (hv : ∀ t ∈ tokens, t.dataOpt.isSome) :
    List.Chain' spanOrdered (dataSpans (tokenizeAssemble text tokens).1) := by
  obtain ⟨h1, _⟩ := foldl_spans_inv text tokens ⟨[], [], none, 0⟩ hv (by simp [dataSpans])
    (by simp [dataSpans])
  rw [tokenizeAssemble]
  by_cases hl : (tokens.foldl (tokenizeStep text) ⟨[], [], none, 0⟩).offset < text.length <;>
    simp [hl, dataSpans_append, dataSpans_appendText, h1]

theorem splitOn_cons_self {α : Type} [DecidableEq α] (x : α) (l : List α) :
    (x :: l).splitOn x = [] :: l.splitOn x := by
  simp [List.splitOn, List.splitOnP_cons]

theorem splitOn_cons_ne {α : Type} [DecidableEq α] {x a : α} (l : List α) (h : a ≠ x) :
    (a :: l).splitOn x = (l.splitOn x).modifyHead (List.cons a) := by
  simp [List.splitOn, List.splitOnP_cons, h]

/-- The parts produced by `splitOn` never contain the separator. -/
theorem not_mem_of_mem_splitOn {α : Type} [DecidableEq α] {x : α} :
    ∀ {s : List α} {p : List α}, p ∈ s.splitOn x → x ∉ p := by
  intro s
  induction s with
  | nil => intro p hp; simp_all
  | cons a t ih =>
    intro p hp
    by_cases hax : a = x
    · subst hax
      rw [splitOn_cons_self] at hp
      rcases List.mem_cons.1 hp with rfl | hp
      · simp
      · exact ih hp
    · rw [splitOn_cons_ne t hax] at hp
      rcases hsp : t.splitOn x with _ | ⟨h0, tl⟩
      · exact absurd hsp (List.splitOnP_ne_nil _ t)
      · rw [hsp] at hp
        simp only [List.modifyHead] at hp
        rcases List.mem_cons.1 hp with rfl | hp
        · intro hx
          rcases List.mem_cons.1 hx with rfl | hx
          · exact hax rfl
          · exact ih (hsp ▸ List.mem_cons_self h0 tl) hx
        · exact ih (hsp ▸ List.mem_cons_of_mem h0 hp)

/-- Counting separators: a list has one separator fewer than `splitOn`
produces parts. -/
theorem count_eq_splitOn_length {α : Type} [DecidableEq α] (x : α) :
    ∀ s : List α, s.count x = (s.splitOn x).length - 1 := by
  intro s
  induction s with
  | nil => simp
  | cons a t ih =>
    by_cases hax : a = x
    · subst hax
      rw [splitOn_cons_self, List.count_cons_self, ih]
      have hne := List.splitOnP_ne_nil (fun b => b == a) t
      have hpos : 0 < (t.splitOn a).length := List.length_pos.2 hne
      simp only [List.length_cons]
      omega
    · rw [splitOn_cons_ne t hax, List.count_cons_of_ne (Ne.symm hax), ih]
      simp

theorem partTokens_count_space (p : List Char) : (partTokens p).count Token.Space = 1 := by
  by_cases hp : p.isEmpty <;> simp [partTokens, hp, List.count_cons, List.count_nil]

theorem countSpace_joined :
    ∀ ps : List (List Char), ps ≠ [] →
      (((ps.map partTokens).flatten).dropLast).count Token.Space = ps.length - 1
  | [], h => absurd rfl h
  | [p], _ => by
    by_cases hp : p.isEmpty <;> simp_all [partTokens, List.count_cons, List.count_nil]
  | p :: q :: ps, _ => by
    have hrest := @flatten_partTokens_ne_nil (q :: ps) (by simp)
    have ih := countSpace_joined (q :: ps) (by simp)
    simp only [List.map_cons, List.flatten_cons] at hrest ih ⊢
    rw [List.dropLast_append_of_ne_nil _ hrest, List.count_append, ih,
      partTokens_count_space]
    simp only [List.length_cons]
    omega

/-- Each space character of the gap yields exactly one `Space` token. -/
theorem appendText_count_space (s : List Char) :
    (appendText s).count Token.Space = s.count spaceChar := by
  rw [appendText, countSpace_joined (s.splitOn spaceChar) (List.splitOnP_ne_nil _ s),
    count_eq_splitOn_length]

theorem intercalate_concat {α : Type} (x : α) :
    ∀ (qs : List (List α)) (q : List α), qs ≠ [] →
      [x].intercalate (qs ++ [q]) = [x].intercalate qs ++ ([x] ++ q)
  | [], _, h => absurd rfl h
  | [a], q, _ => by simp [List.intercalate, List.intersperse]
  | a :: b :: qs, q, _ => by
    have ih := intercalate_concat x (b :: qs) q (by simp)
    simp only [List.intercalate, List.cons_append, List.intersperse_cons_cons,
      List.flatten_cons] at ih ⊢
    rw [ih]
    simp [List.append_assoc]

theorem flat_partTokens_getLast :
    ∀ ps : List (List Char), ps ≠ [] →
      ((ps.map partTokens).flatten).getLast? = some Token.Space
  | [], h => absurd rfl h
  | [p], _ => by by_cases hp : p.isEmpty <;> simp [partTokens, hp]
  | p :: q :: ps, _ => by
    have hrest := @flatten_partTokens_ne_nil (q :: ps) (by simp)
    have ih := flat_partTokens_getLast (q :: ps) (by simp)
    simp only [List.map_cons, List.flatten_cons] at hrest ih ⊢
    rw [List.getLast?_append_of_ne_nil _ hrest]
    exact ih

/-- The final `pop` of `append_text`: the emitted gap tokens end in a
`Space` exactly when the gap text itself ends in a space character - the
synthetic trailing separator is always removed. -/
theorem appendText_trailing (s : List Char) :
    (appendText s).getLast? = some Token.Space ↔ s.getLast? = some spaceChar := by
  obtain ⟨qs, q, hqq⟩ : ∃ qs q, s.splitOn spaceChar = qs ++ [q] := by
    obtain ⟨L, b, h⟩ :=
      (List.eq_nil_or_concat (s.splitOn spaceChar)).resolve_left (List.splitOnP_ne_nil _ s)
    exact ⟨L, b, by simpa [List.concat_eq_append] using h⟩
  have hs : [spaceChar].intercalate (qs ++ [q]) = s := by
    rw [← hqq]; exact List.intercalate_splitOn s spaceChar
  have hL1 : appendText s =
      (qs.map partTokens).flatten ++ (partTokens q).dropLast := by
    rw [appendText, hqq, List.map_append, List.flatten_append]
    simp only [List.map_cons, List.map_nil, List.flatten_cons, List.flatten_nil,
      List.append_nil]
    exact List.dropLast_append_of_ne_nil _ (partTokens_ne_nil q)
  by_cases hq : q.isEmpty
  · have hql : q = [] := List.isEmpty_iff.1 hq
    subst hql
    rw [hL1]
    simp only [partTokens, List.isEmpty_nil, if_true, List.dropLast_single,
      List.append_nil]
    rcases qs with _ | ⟨q0, qs⟩
    · constructor
      · intro h; simp at h
      · intro h
        rw [← hs] at h
        simp [List.intercalate, List.intersperse] at h
    · constructor
      · intro _
        rw [← hs, intercalate_concat spaceChar (q0 :: qs) [] (by simp),
          List.getLast?_append_of_ne_nil _ (by simp)]
        simp
      · intro _
        exact flat_partTokens_getLast (q0 :: qs) (by simp)
  · have hnotin : spaceChar ∉ q :=
      not_mem_of_mem_splitOn (hqq ▸ List.mem_append_right qs (List.mem_singleton.2 rfl))
    have hqne : q ≠ [] := fun hc => hq (by simp [hc])
    have hlast : s.getLast? = q.getLast? := by
      rcases qs with _ | ⟨q0, qs⟩
      · rw [← hs]; simp [List.intercalate, List.intersperse]
      · rw [← hs, intercalate_concat spaceChar (q0 :: qs) q (by simp),
          List.getLast?_append_of_ne_nil _ (by simp : ([spaceChar] ++ q) ≠ []),
          List.getLast?_append_of_ne_nil _ hqne]
    rw [hL1]
    simp only [partTokens, hq, Bool.false_eq_true, if_false, List.dropLast_cons₂,
      List.dropLast_single]
    rw [List.getLast?_concat]
    constructor
    · intro h; simp at h
    · intro h
      rw [hlast] at h
      exact absurd (List.mem_of_mem_getLast? h) hnotin

theorem chain_partTokens (p : List Char) : List.Chain' noAdjacentWords (partTokens p) := by
  by_cases hp : p.isEmpty <;>
    simp [partTokens, hp, List.chain'_cons, noAdjacentWords, Token.isWord]

theorem partTokens_getLast (p : List Char) : (partTokens p).getLast? = some Token.Space := by
  by_cases hp : p.isEmpty <;> simp [partTokens, hp]

theorem chain_flat_partTokens :
    ∀ ps : List (List Char), List.Chain' noAdjacentWords ((ps.map partTokens).flatten)
  | [] => by simp
  | p :: ps => by
    simp only [List.map_cons, List.flatten_cons]
    refine List.chain'_append.2 ⟨chain_partTokens p, chain_flat_partTokens ps, ?_⟩
    intro x hx y _
    rw [partTokens_getLast] at hx
    simp only [Option.mem_def, Option.some_inj] at hx
    subst hx
    simp [noAdjacentWords, Token.isWord]

/-- `append_text` never emits two `Word` tokens side by side; any two
words are separated by at least one `Space`. -/
theorem appendText_no_adjacent_words (s : List Char) :
    List.Chain' noAdjacentWords (appendText s) := by
  have hchain := chain_flat_partTokens (s.splitOn spaceChar)
  exact List.Chain'.prefix hchain ( List.dropLast_prefix _)

theorem create_dataOpt (f : TokenFactories) (d : TokenData) :
    (f.create d).dataOpt = some d := by
  cases f <;> rfl

theorem spanValid_of_dataOpt {text : List Char} {t : Token} {d : TokenData}
    (h : t.dataOpt = some d) (hv : DataValid text d) : SpanValid text t := by
  cases t <;> simp_all [SpanValid, Token.dataOpt]

/-- The scan of `short_cite_re` leaves any input without an occurrence of
the reporter-page structure unchanged. -/
theorem scReplaceGo_id :
    ∀ (fuel : Nat) (s : List Char), (∀ t ∈ s.tails, scMatch t = none) →
      scReplaceGo fuel s = s
  | 0, _, _ => rfl
  | fuel + 1, s, h => by
    have hself : scMatch s = none := h s ((List.mem_tails s s).2 (List.suffix_refl s))
    rw [scReplaceGo.eq_def]
    dsimp only
    rw [hself]
    match s with
    | [] => rfl
    | c :: t =>
      have ht : ∀ u ∈ t.tails, scMatch u = none := fun u hu =>
        h u ((List.mem_tails u (c :: t)).2
          (((List.mem_tails u t).1 hu).trans (List.suffix_cons c t)))
      dsimp only
      rw [scReplaceGo_id fuel t ht]

/-- C1, counterexample: on the text `p qp r` with the registry
`[extractorQPR, extractorPQ]`, `extract_tokens` yields the matches in
prefilter surfacing order `[2..6, 0..3, 2..6]`, which is not ascending in
start offset; among the two overlapping matches the one with the larger
start offset (`2`) is the one emitted, and the smallest-start match
(`0..3`) is discarded. -/
theorem tokenize_not_ascending_counterexample :
    extractTokens ahoQP.get_extractors textPQPR = [tokenQPR, tokenPQ, tokenQPR]
    ∧ tokenPQ.start! < tokenQPR.start!
    ∧ tokenQPR.start! < tokenPQ.end!
    ∧ (tokenize ahoQP.get_extractors textPQPR).1
        = [Token.Word ['p'], Token.Space, tokenQPR]
    ∧ (tokenize ahoQP.get_extractors textPQPR).2 = [(2, tokenQPR)] := by
  decide

/-- C1, amended: `tokenize` processes the merged match sequence in the
order `extract_tokens` produced it, with no sorting; among overlapping
matches the first-processed one wins, even when a later-processed match
starts earlier: the later match is discarded and the assembled output is
as if it were absent. -/
theorem tokenize_first_processed_overlap_wins (text : List Char) (t u : Token)
    (h1 : u.start! < t.start!) (h2 : t.start! ≤ t.end!) :
    tokenizeAssemble text [t, u] = tokenizeAssemble text [t] := by
  have hstep : tokenizeStep text (tokenizeStep text ⟨[], [], none, 0⟩ t) u
      = tokenizeStep text ⟨[], [], none, 0⟩ t := by
    rw [tokenizeStep_eq text ⟨[], [], none, 0⟩ t, if_neg (by omega : ¬(0 > t.start!))]
    rw [tokenizeStep_eq]
    dsimp only
    rw [if_pos (by omega : t.end! > u.start!)]
  rw [tokenizeAssemble, tokenizeAssemble]
  simp only [List.foldl_cons, List.foldl_nil, hstep]

/-- C1, witness for the amended theorem at concrete tokens. -/
theorem tokenize_first_processed_overlap_wins_witness :
    tokenizeAssemble textPQPR [tokenQPR, tokenPQ] = tokenizeAssemble textPQPR [tokenQPR] :=
  tokenize_first_processed_overlap_wins textPQPR tokenQPR tokenPQ (by decide) (by decide)

/-- C2: the Paragraph extractor's regex `(\n)` matches a lone newline, but
the extractor registers an empty trigger-string set, so the Aho-Corasick
prefilter never surfaces it: on the input `\n` the tokenizer emits no
Paragraph token at all, and the extractor violates the prefilter
soundness requirement. -/
theorem paragraph_extractor_prefilter_skips_match :
    paragraphExtractor.get_matches [newlineChar] = [⟨0, 1, [newlineChar], []⟩]
    ∧ paragraphExtractor.strings = []
    ∧ (ahoParagraph.get_extractors [newlineChar]).length = 0
    ∧ tokenize ahoParagraph.get_extractors [newlineChar]
        = ([Token.Word [newlineChar]], [])
    ∧ ¬PrefilterSound paragraphExtractor := by
  refine ⟨by decide, rfl, by decide, by decide, fun h => ?_⟩
  obtain ⟨s, hs, -⟩ := h [newlineChar] ⟨0, 1, [newlineChar], []⟩ (by decide)
  exact List.not_mem_nil s hs

/-- C3: concatenating the payloads of the full token stream returned by
`tokenize` - each `Word` its substring, each `Space` one space character,
every other token its `data` span - reconstructs the input text exactly,
for every extractor source whose extracted tokens carry valid spans (the
regex engine's guarantee). -/
theorem tokenize_payload_coverage (ge : List Char → List TokenExtractor)
    (text : List Char) (hv : ∀ t ∈ extractTokens ge text, SpanValid text t) :
    payloadConcat (tokenize ge text).1 = text :=
  assemble_payload text (extractTokens ge text) hv

/-- C3, witness: the concrete tokenizer `ahoQP` on `p qp r`. -/
theorem tokenize_payload_coverage_witness :
    payloadConcat (tokenize ahoQP.get_extractors textPQPR).1 = textPQPR :=
  tokenize_payload_coverage ahoQP.get_extractors textPQPR (by decide)

/-- C4: in the full stream returned by `tokenize`, the spans of the
span-carrying tokens are pairwise ordered - each token's `end` is at most
the next one's `start` - so token spans never overlap and appear in
non-decreasing position order (`Word`/`Space` filler carries no span, see
`Token.dataOpt`). -/
theorem tokenize_spans_nonoverlapping (ge : List Char → List TokenExtractor)
    (text : List Char) (hv : ∀ t ∈ extractTokens ge text, t.dataOpt.isSome) :
    List.Chain' spanOrdered (dataSpans (tokenize ge text).1) :=
  assemble_spans text (extractTokens ge text) hv

/-- C4, witness: the concrete tokenizer `ahoP` on `p p`. -/
theorem tokenize_spans_nonoverlapping_witness :
    List.Chain' spanOrdered (dataSpans (tokenize ahoP.get_extractors textPP).1) :=
  tokenize_spans_nonoverlapping ahoP.get_extractors textPP (by decide)

/-- C5, counterexample: `Token::merge` always returns `None`, so two
different extractors' tokens for the same citation at the same location
are never combined: the second token is discarded by the overlap rule and
its capture groups and metadata are absent from both output lists, which
carry the first token unchanged. -/
theorem merge_no_op_counterexample :
    Token.merge tokenDupA tokenDupB = none
    ∧ tokenDupA ≠ tokenDupB
    ∧ tokenizeAssemble "ab".toList [tokenDupA, tokenDupB]
        = ([tokenDupA], [(0, tokenDupA)]) := by
  decide

/-- C5, amended: no merging ever happens (`Token::merge` is a no-op
returning `None`); when the current match has the same location as the
most recently emitted token, it is simply discarded by the overlap rule,
leaving the earlier token unchanged in both output lists. -/
theorem duplicate_span_token_discarded_not_merged (text : List Char) (t u : Token)
    (h1 : u.start! = t.start!) (h2 : t.start! < t.end!) :
    Token.merge t u = none
    ∧ tokenizeAssemble text [t, u] = tokenizeAssemble text [t] := by
  refine ⟨rfl, ?_⟩
  have hstep : tokenizeStep text (tokenizeStep text ⟨[], [], none, 0⟩ t) u
      = tokenizeStep text ⟨[], [], none, 0⟩ t := by
    rw [tokenizeStep_eq text ⟨[], [], none, 0⟩ t, if_neg (by omega : ¬(0 > t.start!))]
    rw [tokenizeStep_eq]
    dsimp only
    rw [if_pos (by omega : t.end! > u.start!)]
  rw [tokenizeAssemble, tokenizeAssemble]
  simp only [List.foldl_cons, List.foldl_nil, hstep]

/-- C5, witness for the amended theorem at the two same-span tokens. -/
theorem duplicate_span_token_discarded_not_merged_witness :
    Token.merge tokenDupA tokenDupB = none
    ∧ tokenizeAssemble "ab".toList [tokenDupA, tokenDupB]
        = tokenizeAssemble "ab".toList [tokenDupA] :=
  duplicate_span_token_discarded_not_merged "ab".toList tokenDupA tokenDupB
    (by decide) (by decide)

/-- C6, counterexample: on a pattern without the reporter-page structure,
`short_cite_re` does not fail - it succeeds and returns the pattern
unchanged (the meta-regex finds no match anywhere in `abc`). -/
theorem short_cite_re_succeeds_counterexample :
    short_cite_re "abc".toList = ⟨"abc".toList⟩
    ∧ (("abc".toList).tails.all fun t => (scMatch t).isNone) = true := by
  decide

/-- C6, amended: when the expected reporter-page group structure is absent
from the pattern, the derivation does not fail: `short_cite_re` returns
the pattern unchanged.  Accordingly the crate's error type has no
short-form-derivation variant at all - its only variants are the automaton
and regex build errors. -/
theorem short_cite_re_unchanged_without_structure (s : List Char)
    (h : ∀ t ∈ s.tails, scMatch t = none) :
    short_cite_re s = ⟨s⟩
    ∧ ∀ e : EyeciteError,
        (∃ m, e = .ahocorasickError m) ∨ (∃ m, e = .regexError m) := by
  refine ⟨?_, fun e => ?_⟩
  · rw [short_cite_re, scReplace, scReplaceGo_id s.length s h]
  · cases e with
    | ahocorasickError m => exact Or.inl ⟨m, rfl⟩
    | regexError m => exact Or.inr ⟨m, rfl⟩

/-- C6, witness for the amended theorem at the structureless pattern. -/
theorem short_cite_re_unchanged_without_structure_witness :
    short_cite_re "abc".toList = ⟨"abc".toList⟩
    ∧ ∀ e : EyeciteError,
        (∃ m, e = .ahocorasickError m) ∨ (∃ m, e = .regexError m) :=
  short_cite_re_unchanged_without_structure "abc".toList (by decide)

/-- C7: every token built by `get_token` from a well-formed regex capture -
and hence every token `extract_tokens` returns - has `start <= end` and a
`data` payload equal to exactly `text[start..end]`. -/
theorem extracted_token_spans_valid (ge : List Char → List TokenExtractor)
    (text : List Char)
    (hwf : ∀ e ∈ ge text, ∀ m ∈ e.get_matches text, CaptureWF text m) :
    ∀ t ∈ extractTokens ge text, SpanValid text t := by
  intro t ht
  rw [extractTokens] at ht
  obtain ⟨l, hl, htl⟩ := List.mem_flatten.1 ht
  obtain ⟨e, he, rfl⟩ := List.mem_map.1 hl
  obtain ⟨m, hm, rfl⟩ := List.mem_map.1 htl
  obtain ⟨hc1, hc2, hc3⟩ := hwf e he m hm
  exact spanValid_of_dataOpt (create_dataOpt e.token_factory _) ⟨hc1, hc2, hc3⟩

/-- C7, witness: the Paragraph token extracted from `a\nb` has a valid
span. -/
theorem extracted_token_spans_valid_witness :
    SpanValid textANB (Token.Paragraph ⟨[newlineChar], 1, 2, default, []⟩) :=
  extracted_token_spans_valid (fun _ => [paragraphExtractor]) textANB (by decide)
    (Token.Paragraph ⟨[newlineChar], 1, 2, default, []⟩) (by decide)

/-- C8, counterexample: the candidate extractors surfaced by the prefilter
are not de-duplicated: on `p p` the single-extractor registry surfaces two
candidates (one per trigger occurrence), the extractor is run twice, and
`extract_tokens` returns each of its matches twice. -/
theorem prefilter_candidates_duplicated_counterexample :
    (ahoP.get_extractors textPP).length = 2
    ∧ (extractTokens ahoP.get_extractors textPP).count tokenP1 = 2 := by
  decide

/-- C8, amended: each trigger occurrence surfaces its extractors afresh, so
an extractor is run once per occurrence and its matches repeat in
`extract_tokens`; the repeats are then discarded downstream by the overlap
rule, so the assembled stream carries each match once. -/
theorem prefilter_duplicates_resolved_downstream :
    extractTokens ahoP.get_extractors textPP = [tokenP1, tokenP2, tokenP1, tokenP2]
    ∧ tokenize ahoP.get_extractors textPP
        = ([tokenP1, Token.Space, tokenP2], [(0, tokenP1), (2, tokenP2)]) := by
  decide

/-- C9: for every gap text, `append_text` splits on the space character
into `Word`/`Space` tokens: the payloads concatenate back to the gap
exactly, each space character yields its own `Space` token (consecutive
separators included), no two `Word` tokens are adjacent, and no trailing
`Space` is emitted for the gap's end - the output ends in a `Space` only
when the gap itself ends in a space character. -/
theorem appendText_gap_splitting_spec (s : List Char) :
    payloadConcat (appendText s) = s
    ∧ (appendText s).count Token.Space = s.count spaceChar
    ∧ ((appendText s).getLast? = some Token.Space ↔ s.getLast? = some spaceChar)
    ∧ List.Chain' noAdjacentWords (appendText s) :=
  ⟨appendText_payload s, appendText_count_space s, appendText_trailing s,
    appendText_no_adjacent_words s⟩

/-- C10: the span accessors are partial: `start`/`end` (modelled as
`startOpt`/`endOpt`, with the source's `todo!` panic as `none`) return
nothing exactly on `Word` and `Space` tokens, and are total on every
citation-relevant kind, where they return the carried span. -/
theorem word_space_span_accessors_partial (t : Token) :
    ((t.startOpt = none ∧ t.endOpt = none) ↔ ((∃ s, t = Token.Word s) ∨ t = Token.Space))
    ∧ ∀ d, t.dataOpt = some d → t.startOpt = some d.start ∧ t.endOpt = some d.end := by
  cases t <;> simp [Token.startOpt, Token.endOpt, Token.dataOpt]

end Eyecite
